import Mathlib

/-!
Shallow embedding of `src/imperative/python/megengine/optimizer/adadelta.py`
(the `Adadelta` optimizer of MegEngine) and proofs about it.

Tensors are elementwise, so each parameter is modelled by one rational
scalar; `sqrt` is the external tensor engine's square root, kept as an
explicit function parameter so every definition stays computable.
A parameter's attached gradient is `Option ℚ`: `some g` models a `Buffer`
holding `g`, `none` models an absent or non-`Buffer` gradient.
-/

namespace Adadelta

/-- Hyperparameters of one parameter group (`lr`, `rho`, `eps`, `weight_decay`). -/
structure HParams where
  lr : ℚ
  rho : ℚ
  eps : ℚ
  weight_decay : ℚ
deriving Repr, DecidableEq

/-- A reference to a parameter: its identity (`param.__wrapped__`) and its
`requires_grad` flag. -/
structure PRef where
  id : ℕ
  requires_grad : Bool
deriving Repr, DecidableEq

/-- One parameter's persistent state slots, as created by `_create_state`:
`square_avg`, `acc_delta` and the `step` counter. -/
structure ParamState where
  square_avg : ℚ
  acc_delta : ℚ
  step : ℚ
deriving Repr, DecidableEq

/-- The mutable environment a step acts on: parameter values, attached
gradients and state slots indexed by parameter identity, plus the
`_grad_skip` set (a Python `set`, modelled as a duplicate-free list). -/
structure Env where
  vals : ℕ → ℚ
  grads : ℕ → Option ℚ
  states : ℕ → Option ParamState
  skip : List ℕ

/-- Error message of the `TypeError` raised in `_updates`. -/
def gradBufferMsg : String := "grad must be a Buffer, maybe you forget to call backward()?"

/-- Error message for the `assert len(self._grad_skip) == 0` at the end of
`_updates`. -/
def skipAssertMsg : String := "AssertionError: len(self._grad_skip) == 0"

/-- Error message for a missing state record (`self._state[param]` would
raise a `KeyError`; never reached when state was created). -/
def stateKeyErrorMsg : String := "KeyError: param has no state"

/-- Error messages of the four `assert` statements in `__init__`. -/
def invalidLrMsg : String := "Invalid learning rate"

def invalidRhoMsg : String := "Invalid rho value"

def invalidEpsMsg : String := "Invalid epsilon value"

def invalidWdMsg : String := "Invalid weight_decay value"

/-- The four hyperparameter `assert`s of `Adadelta.__init__`, in source
order: `lr >= 0.0`, `0.0 <= rho <= 1.0`, `eps >= 0.0`, `weight_decay >= 0.0`. -/
def init (lr rho eps weight_decay : ℚ) : Except String HParams :=
  if lr ≥ 0 then
    if rho ≥ 0 ∧ rho ≤ 1 then
      if eps ≥ 0 then
        if weight_decay ≥ 0 then
          Except.ok ⟨lr, rho, eps, weight_decay⟩
        else Except.error invalidWdMsg
      else Except.error invalidEpsMsg
    else Except.error invalidRhoMsg
  else Except.error invalidLrMsg

/-- `_create_state`: for every parameter of the group — with no
`requires_grad` filter — add the three state slots `square_avg`,
`acc_delta` and `step`, all zero-initialized (`_add_state` default and
`initializer=0.0`). -/
def create_state (group : List PRef) (states : ℕ → Option ParamState) : ℕ → Option ParamState :=
  group.foldl (fun st p => fun i => if i = p.id then some ⟨0, 0, 0⟩ else st i) states

/-- The body of the per-parameter loop of `_updates`, in source order:
1. if `param.__wrapped__ in self._grad_skip`: remove it and continue;
2. if `not isinstance(param.grad, Buffer)`: raise `TypeError`;
3. if `not param.requires_grad`: continue;
4. otherwise apply the adadelta recurrence and commit.
Modelled from the spec where the tensor engine is out of scope: `+=` and
`-=` on a `Buffer`/`Parameter` mutate the container in place (the spec
says the `step` counter persists across steps although the code never
rebinds `states["step"]`, and lists in-place mutation of parameter values
as a side effect), so `grad += param * weight_decay` writes back into the
attached gradient and `param -= lr * delta` writes back into the value.
`commitUpdate` is the environment committed by step 4: the adadelta
recurrence on the value, the state slots and (for nonzero weight decay)
the attached gradient; `updateOne` below performs steps 1-4. -/
def commitUpdate (hp : HParams) (sqrt : ℚ → ℚ) (p : PRef) (e : Env) (g : ℚ)
    (st : ParamState) : Env :=
  let v := e.vals p.id
  let g1 := if hp.weight_decay ≠ 0 then g + v * hp.weight_decay else g
  let sqavg := hp.rho * st.square_avg + (1 - hp.rho) * g1 ^ 2
  let std := sqrt (sqavg + hp.eps)
  let delta := sqrt (st.acc_delta + hp.eps) / std * g1
  { vals := fun i => if i = p.id then v - hp.lr * delta else e.vals i
  , grads :=
      if hp.weight_decay ≠ 0 then
        fun i => if i = p.id then some g1 else e.grads i
      else e.grads
  , states := fun i =>
      if i = p.id then
        some ⟨sqavg, hp.rho * st.acc_delta + (1 - hp.rho) * delta ^ 2, st.step + 1⟩
      else e.states i
  , skip := e.skip }

def updateOne (hp : HParams) (sqrt : ℚ → ℚ) (p : PRef) (e : Env) : Except String Env :=
  if p.id ∈ e.skip then
    Except.ok { e with skip := e.skip.erase p.id }
  else
    match e.grads p.id with
    | none => Except.error gradBufferMsg
    | some g =>
      if p.requires_grad = false then Except.ok e
      else
        match e.states p.id with
        | none => Except.error stateKeyErrorMsg
        | some st => Except.ok (commitUpdate hp sqrt p e g st)

/-- The `for param in param_group["params"]` loop of `_updates`. -/
def updatesGo (hp : HParams) (sqrt : ℚ → ℚ) : List PRef → Env → Except String Env
  | [], e => Except.ok e
  | p :: ps, e =>
    match updateOne hp sqrt p e with
    | Except.error s => Except.error s
    | Except.ok e1 => updatesGo hp sqrt ps e1

/-- `_updates` on one parameter group: the per-parameter loop followed by
`assert len(self._grad_skip) == 0`. -/
def updates (hp : HParams) (sqrt : ℚ → ℚ) (group : List PRef) (e : Env) : Except String Env :=
  match updatesGo hp sqrt group e with
  | Except.error s => Except.error s
  | Except.ok e1 =>
    if e1.skip.length = 0 then Except.ok e1 else Except.error skipAssertMsg

/-- Modelled from the spec: the base class `step()` (in `optimizer.py`, not
under `src/`) performs one full update pass, "for each group, in
registration order", invoking the group's update strategy `_updates`;
gradients were populated externally beforehand. -/
def stepFn (sqrt : ℚ → ℚ) : List (HParams × List PRef) → Env → Except String Env
  | [], e => Except.ok e
  | g :: gs, e =>
    match updates g.1 sqrt g.2 e with
    | Except.error s => Except.error s
    | Except.ok e1 => stepFn sqrt gs e1

/-- Number of occurrences of parameter identity `i` across all groups of a
step, in the sense of `stepFn`. -/
def groupCount : List (HParams × List PRef) → ℕ → ℕ
  | [], _ => 0
  | g :: gs, i => g.2.countP (fun q => q.id == i) + groupCount gs i

/-- The optimizer right after construction. -/
structure Optimizer where
  hp : HParams
  groups : List (List PRef)
  states : ℕ → Option ParamState

/-- Modelled from the spec: construction validates all hyperparameters
eagerly (the four `assert`s of `__init__`, which run before
`super().__init__` builds any group or state) and only then builds the
single parameter group and its per-parameter state via the group's
`_create_state` strategy. On an invalid value nothing is constructed, so
no per-parameter state exists. -/
def new (lr rho eps weight_decay : ℚ) (params : List PRef) : Except String Optimizer :=
  match init lr rho eps weight_decay with
  | Except.error s => Except.error s
  | Except.ok hp => Except.ok ⟨hp, [params], create_state params (fun _ => none)⟩

/-- The adadelta recurrence exactly as the spec states it (§4.3), used to
compare the committed update against the spec's formulas:
given `(lr, rho, eps, weight_decay)`, the current parameter value, the
gradient and the two accumulators, it returns
`(param, square_avg, acc_delta)` after one step. -/
def adadeltaSpecStep (lr rho eps weight_decay : ℚ) (sq : ℚ → ℚ)
    (param g square_avg acc_delta : ℚ) : ℚ × ℚ × ℚ :=
  let g1 := if weight_decay ≠ 0 then g + weight_decay * param else g
  let square_avg1 := rho * square_avg + (1 - rho) * g1 ^ 2
  let std := sq (square_avg1 + eps)
  let delta := sq (acc_delta + eps) / std * g1
  (param - lr * delta, square_avg1, rho * acc_delta + (1 - rho) * delta ^ 2)

/-- Hyperparameters used to instantiate theorems: `lr = 1`, `rho = 0`,
`eps = 0`, `weight_decay = 0`. -/
def hp0 : HParams := ⟨1, 0, 0, 0⟩

/-- Hyperparameters with a nonzero weight decay. -/
def hpW : HParams := ⟨1, 0, 0, 1/2⟩

/-- The zero-initialized state record. -/
def st0 : ParamState := ⟨0, 0, 0⟩

/-- A concrete environment: every value `5`, every gradient attached and
holding `1`, every state record created, empty skip set. -/
def env0 : Env := ⟨fun _ => 5, fun _ => some 1, fun _ => some st0, []⟩

/-- A concrete environment with no gradient attached anywhere. -/
def envNoGrad : Env := ⟨fun _ => 5, fun _ => none, fun _ => none, []⟩

/-- Like `env0` but with parameter identity `0` in the skip set. -/
def envSkip : Env := ⟨fun _ => 5, fun _ => some 1, fun _ => some st0, [0]⟩

/-- A parameter reference with `requires_grad = true`. -/
def pT : PRef := ⟨0, true⟩

/-- A parameter reference with `requires_grad = false`. -/
def pF : PRef := ⟨0, false⟩

theorem updateOne_of_mem_skip {hp : HParams} {sq : ℚ → ℚ} {p : PRef} {e : Env}
    (h : p.id ∈ e.skip) :
    updateOne hp sq p e = Except.ok { e with skip := e.skip.erase p.id } := by
  unfold updateOne
  rw [if_pos h]

theorem updateOne_of_not_mem_skip_none {hp : HParams} {sq : ℚ → ℚ} {p : PRef} {e : Env}
    (h : p.id ∉ e.skip) (hg : e.grads p.id = none) :
    updateOne hp sq p e = Except.error gradBufferMsg := by
  unfold updateOne
  rw [if_neg h, hg]

theorem updateOne_of_rg_false_some {hp : HParams} {sq : ℚ → ℚ} {p : PRef} {e : Env} {g : ℚ}
    (h : p.id ∉ e.skip) (hg : e.grads p.id = some g) (hr : p.requires_grad = false) :
    updateOne hp sq p e = Except.ok e := by
  unfold updateOne
  rw [if_neg h, hg]
  simp [hr]

theorem updateOne_of_update {hp : HParams} {sq : ℚ → ℚ} {p : PRef} {e : Env} {g : ℚ}
    {st : ParamState}
    (h : p.id ∉ e.skip) (hg : e.grads p.id = some g) (hr : p.requires_grad = true)
    (hs : e.states p.id = some st) :
    updateOne hp sq p e = Except.ok (commitUpdate hp sq p e g st) := by
  unfold updateOne
  rw [if_neg h, hg, hs]
  simp [hr]

/-- On a success, `updateOne` either erased the parameter from the skip set
(leaving everything else alone) or left the skip set alone. -/
theorem updateOne_skip_cases {hp : HParams} {sq : ℚ → ℚ} {p : PRef} {e e1 : Env}
    (h : updateOne hp sq p e = Except.ok e1) :
    (p.id ∈ e.skip ∧ e1 = { e with skip := e.skip.erase p.id }) ∨
    (p.id ∉ e.skip ∧ e1.skip = e.skip) := by
  by_cases hm : p.id ∈ e.skip
  · rw [updateOne_of_mem_skip hm] at h
    injection h with h
    exact Or.inl ⟨hm, h.symm⟩
  · refine Or.inr ⟨hm, ?_⟩
    unfold updateOne at h
    rw [if_neg hm] at h
    rcases hgr : e.grads p.id with _ | g
    · rw [hgr] at h
      exact absurd h (by simp)
    · rw [hgr] at h
      by_cases hr : p.requires_grad = false
      · simp only [hr, if_pos rfl, reduceIte] at h
        injection h with h
        rw [← h]
      · simp only [if_neg hr] at h
        rcases hst : e.states p.id with _ | st
        · rw [hst] at h
          exact absurd h (by simp)
        · rw [hst] at h
          injection h with h
          rw [← h]
          rfl

/-- On a success, every identity other than the visited parameter's keeps
its value, state record and attached gradient. -/
theorem updateOne_fields_ne {hp : HParams} {sq : ℚ → ℚ} {p : PRef} {e e1 : Env} {i : ℕ}
    (h : updateOne hp sq p e = Except.ok e1) (hi : i ≠ p.id) :
    e1.vals i = e.vals i ∧ e1.states i = e.states i ∧ e1.grads i = e.grads i := by
  by_cases hm : p.id ∈ e.skip
  · rw [updateOne_of_mem_skip hm] at h
    injection h with h
    rw [← h]
    exact ⟨rfl, rfl, rfl⟩
  · unfold updateOne at h
    rw [if_neg hm] at h
    rcases hgr : e.grads p.id with _ | g
    · rw [hgr] at h
      exact absurd h (by simp)
    · rw [hgr] at h
      by_cases hr : p.requires_grad = false
      · simp only [hr, reduceIte] at h
        injection h with h
        rw [← h]
        exact ⟨rfl, rfl, rfl⟩
      · simp only [if_neg hr] at h
        rcases hst : e.states p.id with _ | st
        · rw [hst] at h
          exact absurd h (by simp)
        · rw [hst] at h
          injection h with h
          rw [← h]
          refine ⟨by simp [commitUpdate, hi], by simp [commitUpdate, hi], ?_⟩
          by_cases hw : hp.weight_decay ≠ 0 <;> simp [commitUpdate, hw, hi]

/-- A parameter with `requires_grad = false` never has its value, state or
gradient — nor anyone else's — changed by a successful `updateOne` on it. -/
theorem updateOne_rg_false {hp : HParams} {sq : ℚ → ℚ} {p : PRef} {e e1 : Env}
    (hr : p.requires_grad = false) (h : updateOne hp sq p e = Except.ok e1) :
    ∀ i, e1.vals i = e.vals i ∧ e1.states i = e.states i ∧ e1.grads i = e.grads i := by
  intro i
  by_cases hm : p.id ∈ e.skip
  · rw [updateOne_of_mem_skip hm] at h
    injection h with h
    rw [← h]
    exact ⟨rfl, rfl, rfl⟩
  · rcases hgr : e.grads p.id with _ | g
    · rw [updateOne_of_not_mem_skip_none hm hgr] at h
      exact absurd h (by simp)
    · rw [updateOne_of_rg_false_some hm hgr hr] at h
      injection h with h
      rw [← h]
      exact ⟨rfl, rfl, rfl⟩

theorem updatesGo_subset {hp : HParams} {sq : ℚ → ℚ} (ps : List PRef) :
    ∀ e e1, updatesGo hp sq ps e = Except.ok e1 → e1.skip ⊆ e.skip := by
  induction ps with
  | nil =>
    intro e e1 h
    simp only [updatesGo] at h
    injection h with h
    rw [← h]
    exact fun a ha => ha
  | cons p ps ih =>
    intro e e1 h
    simp only [updatesGo] at h
    split at h
    · exact absurd h (by simp)
    next e2 heq =>
      have hsub := ih e2 e1 h
      rcases updateOne_skip_cases heq with ⟨_, rfl⟩ | ⟨_, hskip⟩
      · exact fun a ha => List.erase_subset _ _ (hsub ha)
      · rw [hskip] at hsub
        exact hsub

theorem updatesGo_nodup {hp : HParams} {sq : ℚ → ℚ} (ps : List PRef) :
    ∀ e e1, updatesGo hp sq ps e = Except.ok e1 → e.skip.Nodup → e1.skip.Nodup := by
  induction ps with
  | nil =>
    intro e e1 h hn
    simp only [updatesGo] at h
    injection h with h
    rw [← h]
    exact hn
  | cons p ps ih =>
    intro e e1 h hn
    simp only [updatesGo] at h
    split at h
    · exact absurd h (by simp)
    next e2 heq =>
      rcases updateOne_skip_cases heq with ⟨_, rfl⟩ | ⟨_, hskip⟩
      · exact ih _ _ h (hn.erase p.id)
      · exact ih _ _ h (by rw [hskip]; exact hn)

theorem updatesGo_fields_ne {hp : HParams} {sq : ℚ → ℚ} {i : ℕ} (ps : List PRef) :
    ∀ e e1, updatesGo hp sq ps e = Except.ok e1 → (∀ q ∈ ps, q.id ≠ i) →
    e1.vals i = e.vals i ∧ e1.states i = e.states i ∧ e1.grads i = e.grads i := by
  induction ps with
  | nil =>
    intro e e1 h _
    simp only [updatesGo] at h
    injection h with h
    rw [← h]
    exact ⟨rfl, rfl, rfl⟩
  | cons p ps ih =>
    intro e e1 h hall
    simp only [updatesGo] at h
    split at h
    · exact absurd h (by simp)
    next e2 heq =>
      have h1 := updateOne_fields_ne heq (Ne.symm (hall p (List.mem_cons_self p ps)))
      have h2 := ih e2 e1 h (fun q hq => hall q (List.mem_cons_of_mem p hq))
      exact ⟨h2.1.trans h1.1, h2.2.1.trans h1.2.1, h2.2.2.trans h1.2.2⟩

theorem updatesGo_mem {hp : HParams} {sq : ℚ → ℚ} {i : ℕ} (ps : List PRef) :
    ∀ e e1, updatesGo hp sq ps e = Except.ok e1 → i ∈ e.skip → (∀ q ∈ ps, q.id ≠ i) →
    i ∈ e1.skip := by
  induction ps with
  | nil =>
    intro e e1 h hm _
    simp only [updatesGo] at h
    injection h with h
    rw [← h]
    exact hm
  | cons p ps ih =>
    intro e e1 h hm hall
    simp only [updatesGo] at h
    split at h
    · exact absurd h (by simp)
    next e2 heq =>
      refine ih e2 e1 h ?_ (fun q hq => hall q (List.mem_cons_of_mem p hq))
      rcases updateOne_skip_cases heq with ⟨_, rfl⟩ | ⟨_, hskip⟩
      · exact (List.mem_erase_of_ne (Ne.symm (hall p (List.mem_cons_self p ps)))).mpr hm
      · rw [hskip]
        exact hm

theorem updatesGo_rg_false {hp : HParams} {sq : ℚ → ℚ} {i : ℕ} (ps : List PRef) :
    ∀ e e1, updatesGo hp sq ps e = Except.ok e1 →
    (∀ q ∈ ps, q.id = i → q.requires_grad = false) →
    e1.vals i = e.vals i ∧ e1.states i = e.states i := by
  induction ps with
  | nil =>
    intro e e1 h _
    simp only [updatesGo] at h
    injection h with h
    rw [← h]
    exact ⟨rfl, rfl⟩
  | cons p ps ih =>
    intro e e1 h hall
    simp only [updatesGo] at h
    split at h
    · exact absurd h (by simp)
    next e2 heq =>
      have h2 := ih e2 e1 h (fun q hq => hall q (List.mem_cons_of_mem p hq))
      by_cases hpid : p.id = i
      · have h1 := updateOne_rg_false (hall p (List.mem_cons_self p ps) hpid) heq i
        exact ⟨h2.1.trans h1.1, h2.2.trans h1.2.1⟩
      · have h1 := updateOne_fields_ne heq (fun hcontra => hpid hcontra.symm)
        exact ⟨h2.1.trans h1.1, h2.2.trans h1.2.1⟩

/-- Traversal of one group when identity `i` starts in the skip set and
occurs at most once among the group's parameters: its value and state are
untouched, and it stays in the skip set exactly when the group does not
contain it. -/
theorem updatesGo_skip_once {hp : HParams} {sq : ℚ → ℚ} {i : ℕ} (ps : List PRef) :
    ∀ e e1, updatesGo hp sq ps e = Except.ok e1 → e.skip.Nodup → i ∈ e.skip →
    ps.countP (fun q => q.id == i) ≤ 1 →
    e1.vals i = e.vals i ∧ e1.states i = e.states i ∧
    (i ∈ e1.skip ↔ ps.countP (fun q => q.id == i) = 0) := by
  induction ps with
  | nil =>
    intro e e1 h _ hm _
    simp only [updatesGo] at h
    injection h with h
    rw [← h]
    simpa using hm
  | cons p ps ih =>
    intro e e1 h hnd hm hc
    simp only [updatesGo] at h
    split at h
    · exact absurd h (by simp)
    next e2 heq =>
      by_cases hpid : p.id = i
      · have hmem : p.id ∈ e.skip := hpid ▸ hm
        rw [updateOne_of_mem_skip hmem] at heq
        injection heq with heq
        have hcnt : (p :: ps).countP (fun q => q.id == i) =
            ps.countP (fun q => q.id == i) + 1 := by
          simp [List.countP_cons, hpid]
        have hzero : ps.countP (fun q => q.id == i) = 0 := by omega
        have hall : ∀ q ∈ ps, q.id ≠ i := by
          intro q hq
          have := List.countP_eq_zero.mp hzero q hq
          simpa using this
        have hf := updatesGo_fields_ne ps e2 e1 h hall
        have hne : i ∉ e2.skip := by
          rw [← heq, hpid]
          exact hnd.not_mem_erase
        refine ⟨by rw [hf.1, ← heq], by rw [hf.2.1, ← heq], ?_⟩
        have hnm : i ∉ e1.skip := fun hmem1 => hne (updatesGo_subset ps e2 e1 h hmem1)
        simp [hnm, hcnt, hzero]
      · have hcnt : (p :: ps).countP (fun q => q.id == i) =
            ps.countP (fun q => q.id == i) := by
          simp [List.countP_cons, hpid]
        rw [hcnt] at hc
        have hine : i ≠ p.id := fun hcontra => hpid hcontra.symm
        rcases updateOne_skip_cases heq with ⟨_, he2⟩ | ⟨_, hskipeq⟩
        · subst he2
          have hrec := ih _ e1 h (hnd.erase p.id)
            ((List.mem_erase_of_ne hine).mpr hm) hc
          rw [hcnt]
          exact hrec
        · have hf := updateOne_fields_ne heq hine
          have hrec := ih e2 e1 h (by rw [hskipeq]; exact hnd)
            (by rw [hskipeq]; exact hm) hc
          rw [hcnt]
          exact ⟨hrec.1.trans hf.1, hrec.2.1.trans hf.2.1, hrec.2.2⟩

/-- A successful `updates` is a successful parameter loop whose final skip
set is empty (this is the per-group `assert len(self._grad_skip) == 0`). -/
theorem updates_ok_elim {hp : HParams} {sq : ℚ → ℚ} {ps : List PRef} {e e1 : Env}
    (h : updates hp sq ps e = Except.ok e1) :
    updatesGo hp sq ps e = Except.ok e1 ∧ e1.skip = [] := by
  unfold updates at h
  split at h
  · exact absurd h (by simp)
  next e2 heq =>
    split at h
    next hlen =>
      injection h with h
      subst h
      exact ⟨heq, List.length_eq_zero.mp hlen⟩
    · exact absurd h (by simp)

/-- If at least one group is processed, a successful `stepFn` ends with an
empty skip set. -/
theorem stepFn_skip_empty {sq : ℚ → ℚ} (groups : List (HParams × List PRef)) :
    ∀ e e1, groups ≠ [] → stepFn sq groups e = Except.ok e1 → e1.skip = [] := by
  induction groups with
  | nil => intro e e1 hne _; exact absurd rfl hne
  | cons g gs ih =>
    intro e e1 _ h
    simp only [stepFn] at h
    split at h
    · exact absurd h (by simp)
    next e2 heq =>
      cases gs with
      | nil =>
        simp only [stepFn] at h
        injection h with h
        rw [← h]
        exact (updates_ok_elim heq).2
      | cons g2 gs2 => exact ih e2 e1 (by simp) h

/-- The skip set only ever shrinks across a full `stepFn` pass. -/
theorem stepFn_subset {sq : ℚ → ℚ} (groups : List (HParams × List PRef)) :
    ∀ e e1, stepFn sq groups e = Except.ok e1 → e1.skip ⊆ e.skip := by
  induction groups with
  | nil =>
    intro e e1 h
    simp only [stepFn] at h
    injection h with h
    rw [← h]
    exact fun a ha => ha
  | cons g gs ih =>
    intro e e1 h
    simp only [stepFn] at h
    split at h
    · exact absurd h (by simp)
    next e2 heq =>
      exact fun a ha =>
        updatesGo_subset g.2 e e2 (updates_ok_elim heq).1 (ih e2 e1 h ha)

/-- A parameter identity not occurring in any group keeps its value, state
record and gradient across a successful `stepFn` pass. -/
theorem stepFn_fields_ne {sq : ℚ → ℚ} {i : ℕ} (groups : List (HParams × List PRef)) :
    ∀ e e1, stepFn sq groups e = Except.ok e1 →
    (∀ g ∈ groups, ∀ q ∈ g.2, q.id ≠ i) →
    e1.vals i = e.vals i ∧ e1.states i = e.states i ∧ e1.grads i = e.grads i := by
  induction groups with
  | nil =>
    intro e e1 h _
    simp only [stepFn] at h
    injection h with h
    rw [← h]
    exact ⟨rfl, rfl, rfl⟩
  | cons g gs ih =>
    intro e e1 h hall
    simp only [stepFn] at h
    split at h
    · exact absurd h (by simp)
    next e2 heq =>
      have h1 := updatesGo_fields_ne g.2 e e2 (updates_ok_elim heq).1
        (hall g (List.mem_cons_self g gs))
      have h2 := ih e2 e1 h (fun g2 hg2 => hall g2 (List.mem_cons_of_mem g hg2))
      exact ⟨h2.1.trans h1.1, h2.2.1.trans h1.2.1, h2.2.2.trans h1.2.2⟩

/-- A parameter identity whose every occurrence has `requires_grad = false`
keeps its value and state record across a successful `stepFn` pass. -/
theorem stepFn_rg_false {sq : ℚ → ℚ} {i : ℕ} (groups : List (HParams × List PRef)) :
    ∀ e e1, stepFn sq groups e = Except.ok e1 →
    (∀ g ∈ groups, ∀ q ∈ g.2, q.id = i → q.requires_grad = false) →
    e1.vals i = e.vals i ∧ e1.states i = e.states i := by
  induction groups with
  | nil =>
    intro e e1 h _
    simp only [stepFn] at h
    injection h with h
    rw [← h]
    exact ⟨rfl, rfl⟩
  | cons g gs ih =>
    intro e e1 h hall
    simp only [stepFn] at h
    split at h
    · exact absurd h (by simp)
    next e2 heq =>
      have h1 := updatesGo_rg_false g.2 e e2 (updates_ok_elim heq).1
        (hall g (List.mem_cons_self g gs))
      have h2 := ih e2 e1 h (fun g2 hg2 => hall g2 (List.mem_cons_of_mem g hg2))
      exact ⟨h2.1.trans h1.1, h2.2.trans h1.2⟩

theorem groupCount_eq_zero {i : ℕ} (groups : List (HParams × List PRef))
    (h : groupCount groups i = 0) :
    ∀ g ∈ groups, ∀ q ∈ g.2, q.id ≠ i := by
  induction groups with
  | nil => intro g hg; exact absurd hg (List.not_mem_nil g)
  | cons g0 gs ih =>
    simp only [groupCount] at h
    intro g hg q hq
    rcases List.mem_cons.mp hg with rfl | hg2
    · have hz : g.2.countP (fun q => q.id == i) = 0 := by omega
      have := List.countP_eq_zero.mp hz q hq
      simpa using this
    · exact ih (by omega) g hg2 q hq

theorem create_state_cons (p : PRef) (ps : List PRef) (st : ℕ → Option ParamState) :
    create_state (p :: ps) st =
      create_state ps (fun i => if i = p.id then some ⟨0, 0, 0⟩ else st i) := rfl

theorem create_state_not_mem {i : ℕ} (group : List PRef) :
    ∀ st, (∀ q ∈ group, q.id ≠ i) → create_state group st i = st i := by
  induction group with
  | nil => intro st _; rfl
  | cons p ps ih =>
    intro st hall
    have hne : i ≠ p.id := fun hc => hall p (List.mem_cons_self p ps) hc.symm
    rw [create_state_cons, ih _ (fun q hq => hall q (List.mem_cons_of_mem p hq))]
    simp [hne]

/-- `_create_state` gives a state record to every identity occurring in the
group, `requires_grad` or not. -/
theorem create_state_mem {i : ℕ} (group : List PRef) :
    ∀ st, i ∈ group.map PRef.id → create_state group st i = some ⟨0, 0, 0⟩ := by
  induction group with
  | nil => intro st hmem; exact absurd hmem (List.not_mem_nil i)
  | cons p ps ih =>
    intro st hmem
    by_cases hmem2 : i ∈ ps.map PRef.id
    · rw [create_state_cons]
      exact ih _ hmem2
    · have hpi : i = p.id := by
        rcases List.mem_map.mp hmem with ⟨q, hq, hqi⟩
        rcases List.mem_cons.mp hq with rfl | hq2
        · exact hqi.symm
        · exact absurd (List.mem_map.mpr ⟨q, hq2, hqi⟩) hmem2
      have hall : ∀ q ∈ ps, q.id ≠ i := by
        intro q hq hcontra
        exact hmem2 (List.mem_map.mpr ⟨q, hq, hcontra⟩)
      rw [create_state_cons, create_state_not_mem ps _ hall]
      simp [hpi]

/-- C4: For every updated parameter (`requires_grad = true`, not skipped,
gradient attached, state present), one step commits exactly the spec's
adadelta recurrence `adadeltaSpecStep`: with `g' = g + weight_decay*param`
when `weight_decay ≠ 0` (else `g' = g`),
`square_avg' = rho*square_avg + (1-rho)*g'^2`, `std = sqrt(square_avg'+eps)`,
`delta = sqrt(acc_delta+eps)/std * g'`, `param' = param - lr*delta`,
`acc_delta' = rho*acc_delta + (1-rho)*delta^2`, and the step counter grows
by one; since `adadeltaSpecStep` squares the already-modified gradient,
the weight-decay modification happens before the `square_avg` update. -/
theorem adadelta_step_matches_spec_recurrence (hp : HParams) (sq : ℚ → ℚ)
    (p : PRef) (e : Env) (g : ℚ) (st : ParamState)
    (h1 : p.id ∉ e.skip) (h2 : e.grads p.id = some g)
    (h3 : p.requires_grad = true) (h4 : e.states p.id = some st) :
    ∃ e1, updateOne hp sq p e = Except.ok e1 ∧
      e1.vals p.id = (adadeltaSpecStep hp.lr hp.rho hp.eps hp.weight_decay sq
        (e.vals p.id) g st.square_avg st.acc_delta).1 ∧
      e1.states p.id = some
        ⟨(adadeltaSpecStep hp.lr hp.rho hp.eps hp.weight_decay sq
            (e.vals p.id) g st.square_avg st.acc_delta).2.1,
         (adadeltaSpecStep hp.lr hp.rho hp.eps hp.weight_decay sq
            (e.vals p.id) g st.square_avg st.acc_delta).2.2,
         st.step + 1⟩ := by
  refine ⟨_, updateOne_of_update h1 h2 h3 h4, ?_, ?_⟩ <;>
    simp only [commitUpdate, adadeltaSpecStep] <;>
    rw [mul_comm (e.vals p.id) hp.weight_decay] <;>
    simp

/-- Witness for C4 at `lr = 1`, `rho = 0`, `eps = 0`, `weight_decay = 1/2`,
parameter value `5`, gradient `1`, zero state, `sqrt` taken as the identity
function. -/
theorem adadelta_step_matches_spec_recurrence_witness :
    (pT.id ∉ env0.skip) ∧ (env0.grads pT.id = some 1) ∧
    (pT.requires_grad = true) ∧ (env0.states pT.id = some st0) ∧
    (∃ e1, updateOne hpW id pT env0 = Except.ok e1 ∧
      e1.vals pT.id = (adadeltaSpecStep hpW.lr hpW.rho hpW.eps hpW.weight_decay id
        (env0.vals pT.id) 1 st0.square_avg st0.acc_delta).1 ∧
      e1.states pT.id = some
        ⟨(adadeltaSpecStep hpW.lr hpW.rho hpW.eps hpW.weight_decay id
            (env0.vals pT.id) 1 st0.square_avg st0.acc_delta).2.1,
         (adadeltaSpecStep hpW.lr hpW.rho hpW.eps hpW.weight_decay id
            (env0.vals pT.id) 1 st0.square_avg st0.acc_delta).2.2,
         st0.step + 1⟩) :=
  ⟨by decide, by decide, by decide, by decide,
   adadelta_step_matches_spec_recurrence hpW id pT env0 1 st0
     (by decide) (by decide) (by decide) (by decide)⟩

/-- C7: For every parameter not in the skip set whose gradient is absent or
not a `Buffer` (`e.grads p.id = none`), the per-parameter pass raises the
`TypeError` "grad must be a Buffer, maybe you forget to call backward()?"
and never returns an updated environment for it. -/
theorem adadelta_missing_grad_raises (hp : HParams) (sq : ℚ → ℚ) (p : PRef) (e : Env)
    (h1 : p.id ∉ e.skip) (h2 : e.grads p.id = none) :
    updateOne hp sq p e = Except.error gradBufferMsg ∧
      (∀ e1, updateOne hp sq p e ≠ Except.ok e1) ∧
      ∀ ps, updates hp sq (p :: ps) e = Except.error gradBufferMsg := by
  have h := @updateOne_of_not_mem_skip_none hp sq p e h1 h2
  refine ⟨h, fun e1 hok => ?_, fun ps => ?_⟩
  · rw [h] at hok
    exact Except.noConfusion hok
  · unfold updates updatesGo
    rw [h]

/-- Witness for C7: a `requires_grad = true` parameter with no gradient
attached makes the per-parameter pass fail with the `TypeError` message. -/
theorem adadelta_missing_grad_raises_witness :
    (pT.id ∉ envNoGrad.skip) ∧ (envNoGrad.grads pT.id = none) ∧
    (updateOne hp0 id pT envNoGrad = Except.error gradBufferMsg ∧
      (∀ e1, updateOne hp0 id pT envNoGrad ≠ Except.ok e1) ∧
      ∀ ps, updates hp0 id (pT :: ps) envNoGrad = Except.error gradBufferMsg) :=
  ⟨by decide, by decide,
   adadelta_missing_grad_raises hp0 id pT envNoGrad (by decide) (by decide)⟩

/-- C2, counterexample: a parameter with `requires_grad = false`, not in
the skip set and with no gradient attached does NOT continue silently —
`step()` raises the `TypeError`, because the code checks
`isinstance(param.grad, Buffer)` before `param.requires_grad`. -/
theorem adadelta_rg_false_no_grad_raises :
    stepFn id [(hp0, [pF])] envNoGrad = Except.error gradBufferMsg := by
  rfl

/-- C2 as amended: during the per-parameter pass the gradient-presence
check happens BEFORE the `requires_grad` check: for a parameter not in the
skip set with `requires_grad = false`, the pass raises the `TypeError` when
the gradient is absent, and only when the gradient is a `Buffer` does it
continue to the next parameter leaving the environment unchanged. -/
theorem adadelta_grad_check_precedes_rg_check (hp : HParams) (sq : ℚ → ℚ)
    (p : PRef) (e : Env)
    (hskip : p.id ∉ e.skip) (hr : p.requires_grad = false) :
    (e.grads p.id = none → updateOne hp sq p e = Except.error gradBufferMsg) ∧
    (∀ g, e.grads p.id = some g → updateOne hp sq p e = Except.ok e) :=
  ⟨fun hg => updateOne_of_not_mem_skip_none hskip hg,
   fun _ hg => updateOne_of_rg_false_some hskip hg hr⟩

/-- Witness for the amended C2 at a concrete frozen parameter. -/
theorem adadelta_grad_check_precedes_rg_check_witness :
    (pF.id ∉ envNoGrad.skip) ∧ (pF.requires_grad = false) ∧
    ((envNoGrad.grads pF.id = none →
        updateOne hp0 id pF envNoGrad = Except.error gradBufferMsg) ∧
      (∀ g, envNoGrad.grads pF.id = some g →
        updateOne hp0 id pF envNoGrad = Except.ok envNoGrad)) :=
  ⟨by decide, by decide,
   adadelta_grad_check_precedes_rg_check hp0 id pF envNoGrad (by decide) (by decide)⟩

/-- C9: determinism — a full `step()` pass is a function of the parameter
values, gradients, hyperparameters and state alone: two runs from equal
inputs produce equal parameter values and state slots (no hidden
randomness in the embedding of `_updates`). -/
theorem adadelta_step_deterministic (sq : ℚ → ℚ)
    (groups1 groups2 : List (HParams × List PRef)) (e1 e2 : Env)
    (hg : groups1 = groups2) (he : e1 = e2) :
    stepFn sq groups1 e1 = stepFn sq groups2 e2 := by
  rw [hg, he]

/-- Witness for C9 at a concrete one-group configuration. -/
theorem adadelta_step_deterministic_witness :
    stepFn id [(hp0, [pT])] env0 = stepFn id [(hp0, [pT])] env0 :=
  adadelta_step_deterministic id [(hp0, [pT])] [(hp0, [pT])] env0 env0 rfl rfl

/-- C10: for every updated parameter, when `weight_decay ≠ 0` the step
augments the attached gradient container in place (`grad += param *
weight_decay`), so afterwards the externally owned gradient holds
`g + weight_decay * param` (with the pre-update parameter value); when
`weight_decay = 0` every gradient is left unchanged. -/
theorem adadelta_weight_decay_mutates_grad (hp : HParams) (sq : ℚ → ℚ)
    (p : PRef) (e : Env) (g : ℚ) (st : ParamState)
    (h1 : p.id ∉ e.skip) (h2 : e.grads p.id = some g)
    (h3 : p.requires_grad = true) (h4 : e.states p.id = some st) :
    ∃ e1, updateOne hp sq p e = Except.ok e1 ∧
      (hp.weight_decay ≠ 0 →
        e1.grads p.id = some (g + hp.weight_decay * e.vals p.id)) ∧
      (hp.weight_decay = 0 → ∀ j, e1.grads j = e.grads j) := by
  refine ⟨_, updateOne_of_update h1 h2 h3 h4, fun hw => ?_, fun hw j => ?_⟩
  · simp [commitUpdate, hw, mul_comm]
  · simp [commitUpdate, hw]

/-- Witness for C10 with `weight_decay = 1/2`, parameter value `5` and
gradient `1`: afterwards the attached gradient holds `1 + (1/2) * 5`. -/
theorem adadelta_weight_decay_mutates_grad_witness :
    (pT.id ∉ env0.skip) ∧ (env0.grads pT.id = some 1) ∧
    (pT.requires_grad = true) ∧ (env0.states pT.id = some st0) ∧
    (∃ e1, updateOne hpW id pT env0 = Except.ok e1 ∧
      (hpW.weight_decay ≠ 0 →
        e1.grads pT.id = some (1 + hpW.weight_decay * env0.vals pT.id)) ∧
      (hpW.weight_decay = 0 → ∀ j, e1.grads j = env0.grads j)) :=
  ⟨by decide, by decide, by decide, by decide,
   adadelta_weight_decay_mutates_grad hpW id pT env0 1 st0
     (by decide) (by decide) (by decide) (by decide)⟩

/-- C5: construction succeeds exactly when `lr ≥ 0`, `0 ≤ rho ≤ 1`,
`eps ≥ 0` and `weight_decay ≥ 0`; any single out-of-range value makes
construction fail (the `assert`s run before `super().__init__`, so the
failure happens before any group or per-parameter state exists — on the
error branch no `Optimizer` value is produced at all). -/
theorem adadelta_construction_validates (lr rho eps weight_decay : ℚ)
    (params : List PRef) :
    (∃ o, new lr rho eps weight_decay params = Except.ok o) ↔
      0 ≤ lr ∧ (0 ≤ rho ∧ rho ≤ 1) ∧ 0 ≤ eps ∧ 0 ≤ weight_decay := by
  simp only [new, init]
  split_ifs with h1 h2 h3 h4 <;> simp_all

/-- C8, counterexample: constructing the optimizer with `eps = 0` (and all
other hyperparameters valid) is ACCEPTED, because `__init__` asserts
`eps >= 0.0`, not `eps > 0`; so the claim that `eps = 0` is rejected at
construction is false. -/
theorem adadelta_eps_zero_accepted :
    ∃ o, new 1 (9/10) 0 0 [] = Except.ok o := by
  refine ⟨⟨⟨1, 9/10, 0, 0⟩, [[]], create_state [] (fun _ => none)⟩, ?_⟩
  simp only [new, init]
  norm_num

/-- C8 as amended: construction only validates `eps ≥ 0`, so `eps = 0`
passes validation; strict positivity of the divisor
`std = sqrt(square_avg' + eps)` is therefore NOT enforced at construction
(the `eps = 0` divide-by-zero case remains latent, as §9 of the spec
notes). -/
theorem adadelta_eps_zero_passes_validation (lr rho weight_decay : ℚ)
    (params : List PRef)
    (h1 : 0 ≤ lr) (h2 : 0 ≤ rho) (h3 : rho ≤ 1) (h4 : 0 ≤ weight_decay) :
    ∃ o, new lr rho 0 weight_decay params = Except.ok o := by
  simp only [new, init, ge_iff_le]
  simp [h1, h2, h3, h4]

/-- Witness for the amended C8 at `lr = 2`, `rho = 1/2`,
`weight_decay = 3`. -/
theorem adadelta_eps_zero_passes_validation_witness :
    ((0 : ℚ) ≤ 2) ∧ ((0 : ℚ) ≤ 1/2) ∧ ((1/2 : ℚ) ≤ 1) ∧ ((0 : ℚ) ≤ 3) ∧
    (∃ o, new 2 (1/2) 0 3 [] = Except.ok o) :=
  ⟨by norm_num, by norm_num, by norm_num, by norm_num,
   adadelta_eps_zero_passes_validation 2 (1/2) 3 []
     (by norm_num) (by norm_num) (by norm_num) (by norm_num)⟩

/-- C1, counterexample: a parameter with `requires_grad = false` DOES get
state slots — `_create_state` loops over every parameter of the group with
no `requires_grad` filter, so construction gives the frozen parameter a
zero-initialized state record. -/
theorem adadelta_frozen_param_gets_state :
    ∃ o, new 1 0 0 0 [pF] = Except.ok o ∧ o.states pF.id = some ⟨0, 0, 0⟩ :=
  ⟨_, rfl, rfl⟩

/-- C1 as amended: the update pass of `step()` never mutates the value or
the state record of a parameter identity all of whose occurrences have
`requires_grad = false` (when its gradient is a `Buffer` it is passed
over; when the gradient is absent the pass raises before mutating
anything); however, state slots ARE created for it, since `_create_state`
creates the three slots for every identity occurring in the group. -/
theorem adadelta_rg_false_value_and_state_untouched (sq : ℚ → ℚ)
    (groups : List (HParams × List PRef)) (e e1 : Env) (i : ℕ)
    (hok : stepFn sq groups e = Except.ok e1)
    (hall : ∀ g ∈ groups, ∀ q ∈ g.2, q.id = i → q.requires_grad = false) :
    (e1.vals i = e.vals i ∧ e1.states i = e.states i) ∧
    ∀ (group : List PRef) (st : ℕ → Option ParamState),
      i ∈ group.map PRef.id → create_state group st i = some ⟨0, 0, 0⟩ :=
  ⟨stepFn_rg_false groups e e1 hok hall,
   fun group st hmem => create_state_mem group st hmem⟩

/-- Witness for the amended C1: one group holding only a frozen parameter
with an attached gradient; the pass succeeds and leaves it untouched. -/
theorem adadelta_rg_false_value_and_state_untouched_witness :
    (stepFn id [(hp0, [pF])] env0 = Except.ok env0) ∧
    ((env0.vals 0 = env0.vals 0 ∧ env0.states 0 = env0.states 0) ∧
      ∀ (group : List PRef) (st : ℕ → Option ParamState),
        0 ∈ group.map PRef.id → create_state group st 0 = some ⟨0, 0, 0⟩) :=
  ⟨rfl,
   adadelta_rg_false_value_and_state_untouched id [(hp0, [pF])] env0 env0 0
     rfl (by decide)⟩

/-- C3: (postcondition) after a successful full update pass over at least
one group the gradient skip set is empty; and (consistency error) a
skip-set entry naming a parameter the group never visits makes `_updates`
fail with the `assert len(self._grad_skip) == 0` assertion once the
per-parameter loop has finished. -/
theorem adadelta_skip_set_postcondition (sq : ℚ → ℚ) :
    (∀ groups (e e1 : Env), groups ≠ [] → stepFn sq groups e = Except.ok e1 →
      e1.skip = []) ∧
    (∀ hp (ps : List PRef) (e e2 : Env) (i : ℕ), i ∈ e.skip →
      (∀ q ∈ ps, q.id ≠ i) → updatesGo hp sq ps e = Except.ok e2 →
      updates hp sq ps e = Except.error skipAssertMsg) := by
  constructor
  · exact fun groups e e1 hne hok => stepFn_skip_empty groups e e1 hne hok
  · intro hp ps e e2 i hmem hall hgo
    have h2 : i ∈ e2.skip := updatesGo_mem ps e e2 hgo hmem hall
    have hne0 : e2.skip.length ≠ 0 := by
      intro hlen
      rw [List.length_eq_zero.mp hlen] at h2
      exact absurd h2 (List.not_mem_nil i)
    have hform : updates hp sq ps e =
        if e2.skip.length = 0 then Except.ok e2 else Except.error skipAssertMsg := by
      unfold updates
      rw [hgo]
    rw [hform, if_neg hne0]

/-- Witness for C3: a successful pass ends with an empty skip set, and with
an empty parameter list a pending entry `0` makes `_updates` fail with the
assertion message. -/
theorem adadelta_skip_set_postcondition_witness :
    (([(hp0, [pF])] : List (HParams × List PRef)) ≠ [] ∧
      stepFn id [(hp0, [pF])] env0 = Except.ok env0 ∧ env0.skip = []) ∧
    ((0 : ℕ) ∈ envSkip.skip ∧ (∀ q ∈ ([] : List PRef), q.id ≠ 0) ∧
      updatesGo hp0 id [] envSkip = Except.ok envSkip ∧
      updates hp0 id [] envSkip = Except.error skipAssertMsg) :=
  ⟨⟨by simp, rfl,
    (adadelta_skip_set_postcondition id).1 [(hp0, [pF])] env0 env0 (by simp) rfl⟩,
   ⟨by decide, by decide, rfl,
    (adadelta_skip_set_postcondition id).2 hp0 [] envSkip envSkip 0
      (by decide) (by decide) rfl⟩⟩

/-- C6: a parameter identity placed in the skip set before `step()`, with
its single occurrence among the groups, is left with its value and state
record numerically unchanged by a successful `step()` and is no longer in
the skip set afterwards. -/
theorem adadelta_skipped_param_untouched (sq : ℚ → ℚ)
    (groups : List (HParams × List PRef)) (e e1 : Env) (i : ℕ)
    (hne : groups ≠ []) (hnd : e.skip.Nodup) (hmem : i ∈ e.skip)
    (hcount : groupCount groups i ≤ 1)
    (hok : stepFn sq groups e = Except.ok e1) :
    e1.vals i = e.vals i ∧ e1.states i = e.states i ∧ i ∉ e1.skip := by
  rcases groups with _ | ⟨g, gs⟩
  · exact absurd rfl hne
  · simp only [stepFn] at hok
    split at hok
    · exact absurd hok (by simp)
    next e2 heq =>
      have helim := updates_ok_elim heq
      have hc1 : g.2.countP (fun q => q.id == i) ≤ 1 := by
        simp only [groupCount] at hcount
        omega
      have hU := updatesGo_skip_once g.2 e e2 helim.1 hnd hmem hc1
      have hrest : groupCount gs i = 0 := by
        have hne0 : g.2.countP (fun q => q.id == i) ≠ 0 := by
          intro h0
          have hmem2 : i ∈ e2.skip := hU.2.2.mpr h0
          rw [helim.2] at hmem2
          exact absurd hmem2 (List.not_mem_nil i)
        simp only [groupCount] at hcount
        omega
      have hF := stepFn_fields_ne gs e2 e1 hok (groupCount_eq_zero gs hrest)
      have hnm : i ∉ e1.skip := by
        intro hmem1
        have hm2 := stepFn_subset gs e2 e1 hok hmem1
        rw [helim.2] at hm2
        exact absurd hm2 (List.not_mem_nil i)
      exact ⟨hF.1.trans hU.1, hF.2.1.trans hU.2.1, hnm⟩

/-- Witness for C6: identity `0` is in the skip set, occurs once, and the
pass leaves it untouched and drains the skip set. -/
theorem adadelta_skipped_param_untouched_witness :
    (([(hp0, [pF])] : List (HParams × List PRef)) ≠ [] ∧
      envSkip.skip.Nodup ∧ (0 : ℕ) ∈ envSkip.skip ∧
      groupCount [(hp0, [pF])] 0 ≤ 1 ∧
      stepFn id [(hp0, [pF])] envSkip = Except.ok env0) ∧
    (env0.vals 0 = envSkip.vals 0 ∧ env0.states 0 = envSkip.states 0 ∧
      (0 : ℕ) ∉ env0.skip) :=
  ⟨⟨by simp, by decide, by decide, by decide, rfl⟩,
   adadelta_skipped_param_untouched id [(hp0, [pF])] envSkip env0 0
     (by simp) (by decide) (by decide) (by decide) rfl⟩

end Adadelta
